import Mathlib

/-!
Verification of the process-scheduling core (src/Project1/main.go).

The Go code is shallowly embedded: every scheduler function becomes a pure
Lean function over explicit state records.  Go `int`/`int64` values become
`Int` (the values involved are tiny, so 64-bit wraparound never occurs),
and the `float64` accumulators, which only ever hold exactly-representable
small integers, become `Int` as well.  A `float64` division is modelled by
`fdiv : Rat -> Rat -> Option Rat`, where `none` stands for the IEEE
NaN/Inf produced by a zero divisor.  The discrete-timestep simulation
loops of `SJFSchedule`, `SJFPrioritySchedule` and `RRSchedule` mutate
their own loop bound, so they are embedded as fuelled loops returning
`Option` (with `none` meaning the Go loop has not yet exited).
-/

namespace ProcSched

/-- Go struct `Process` (src/Project1/main.go lines 59-64). -/
structure Process where
  processID : Int
  arrivalTime : Int
  burstDuration : Int
  priority : Int
deriving DecidableEq, Repr

instance : Inhabited Process := ⟨⟨0, 0, 0, 0⟩⟩

/-- Go struct `TimeSlice` (lines 65-69). -/
structure TimeSlice where
  pid : Int
  start : Int
  stop : Int
deriving DecidableEq, Repr

instance : Inhabited TimeSlice := ⟨⟨0, 0, 0⟩⟩

/-- One row of the `schedule` table: the seven columns that every scheduler
writes via `fmt.Sprint` (ID, Priority, Burst, Arrival, Wait, Turnaround,
Exit), kept as integers instead of strings. -/
structure ResultRow where
  processID : Int
  priority : Int
  burstDuration : Int
  arrivalTime : Int
  waitTime : Int
  turnaroundTime : Int
  completionTime : Int
deriving DecidableEq, Repr

instance : Inhabited ResultRow := ⟨⟨0, 0, 0, 0, 0, 0, 0⟩⟩

/-- Go `float64` division `a / b`: `none` models the NaN (0/0) or Inf
(x/0) produced when the divisor is zero; otherwise the quotient is exact
for the integer-valued operands the schedulers feed it. -/
def fdiv (a b : Rat) : Option Rat := if b = 0 then none else some (a / b)

/-- The three aggregate values handed to `outputSchedule` (wait average,
turnaround average, and the third argument printed as throughput). -/
structure AggregateStats where
  averageWait : Option Rat
  averageTurnaround : Option Rat
  throughput : Option Rat
deriving DecidableEq, Repr

/-! ## FCFSSchedule (lines 78-128) -/

/-- The loop-carried state of `FCFSSchedule`, including the caller's
process slice (which the Go loop reads and never writes). -/
structure FCFSAcc where
  processes : List Process
  serviceTime : Int
  waitingTime : Int
  totalWait : Int
  totalTurnaround : Int
  lastCompletion : Int
  rows : List ResultRow
  gantt : List TimeSlice
deriving DecidableEq, Repr

/-- Body of the `for i := range processes` loop of `FCFSSchedule`
(lines 88-118), verbatim: `waitingTime` is reassigned only when
`ArrivalTime > 0`, and the slice appended runs from
`waitingTime + ArrivalTime` to the updated `serviceTime`. -/
def fcfsStep (a : FCFSAcc) (p : Process) : FCFSAcc :=
  let waitingTime := if 0 < p.arrivalTime then a.serviceTime - p.arrivalTime else a.waitingTime
  let start := waitingTime + p.arrivalTime
  let turnaround := p.burstDuration + waitingTime
  let completion := p.burstDuration + p.arrivalTime + waitingTime
  let serviceTime := a.serviceTime + p.burstDuration
  { processes := a.processes
    serviceTime := serviceTime
    waitingTime := waitingTime
    totalWait := a.totalWait + waitingTime
    totalTurnaround := a.totalTurnaround + turnaround
    lastCompletion := completion
    rows := a.rows ++ [⟨p.processID, p.priority, p.burstDuration, p.arrivalTime,
                       waitingTime, turnaround, completion⟩]
    gantt := a.gantt ++ [⟨p.processID, start, serviceTime⟩] }

def fcfsRun (ps : List Process) : FCFSAcc :=
  ps.foldl fcfsStep ⟨ps, 0, 0, 0, 0, 0, [], []⟩

/-- The three values `FCFSSchedule` passes to `outputSchedule`
(lines 120-127): `totalWait/count`, `totalTurnaround/count`,
`count/lastCompletion`. -/
def fcfsStats (ps : List Process) : AggregateStats :=
  let a := fcfsRun ps
  { averageWait := fdiv (a.totalWait : Rat) (ps.length : Rat)
    averageTurnaround := fdiv (a.totalTurnaround : Rat) (ps.length : Rat)
    throughput := fdiv (ps.length : Rat) (a.lastCompletion : Rat) }

/-! ## The discrete-timestep simulators: SJFSchedule (lines 232-318) and
SJFPrioritySchedule (lines 130-230) -/

/-- The variables of the simulation loops, one record for both preemptive
schedulers: the caller's slice `processes` (read, never written), the loop
counter `timestep`, the mutable loop bound `totalBurstTime`, the working
copy `processBurstLeft`, the preallocated `schedule` table (a row is
`none` until its process finishes), the Gantt slice accumulator, and the
float accumulators. -/
structure SimState where
  processes : List Process
  timestep : Int
  totalBurstTime : Int
  burstLeft : List Int
  rows : List (Option ResultRow)
  gantt : List TimeSlice
  lastGantIndex : Int
  lastGantStartTime : Int
  totalWait : Int
  totalTurnaround : Int
  lastCompletion : Int
deriving DecidableEq, Repr

/-- Shared initialisation of both preemptive schedulers (lines 141-144 /
243-246): `totalBurstTime` is the sum of the bursts and
`processBurstLeft[i]` starts at `BurstDuration`. -/
def simInit (ps : List Process) : SimState :=
  { processes := ps
    timestep := 0
    totalBurstTime := (ps.map (·.burstDuration)).sum
    burstLeft := ps.map (·.burstDuration)
    rows := ps.map fun _ => none
    gantt := []
    lastGantIndex := -1
    lastGantStartTime := 0
    totalWait := 0
    totalTurnaround := 0
    lastCompletion := 0 }

/-- The scan of `SJFSchedule` (lines 255-273) over the indexed pairs of
(process, remaining burst), carrying `(leastJobIndex, leastJobBurstTime)`
initialised to `(-1, 100000000)`: skip if no work left, skip if not yet
arrived, skip unless strictly smaller than the best burst so far. -/
def sjfScanAux (t : Int) : Nat → Int × Int → List (Process × Int) → Int × Int
  | _, best, [] => best
  | i, best, (p, r) :: rest =>
      sjfScanAux t (i + 1)
        (if r ≤ 0 then best
         else if t < p.arrivalTime then best
         else if best.2 ≤ r then best
         else ((i : Int), r)) rest

def sjfSelect (ps : List Process) (bl : List Int) (t : Int) : Int × Int :=
  sjfScanAux t 0 (-1, 100000000) (ps.zip bl)

/-- The scan of `SJFPrioritySchedule` (lines 154-185), carrying
`(leastJobIndex, leastJobBurstTime, leastJobPriority)`.  When a strictly
lower priority wins, the Go code stores `processes[i].BurstDuration` (the
full burst) as `leastJobBurstTime`, not the remaining burst — embedded
verbatim. -/
def priorityScanAux (t : Int) : Nat → Int × Int × Int → List (Process × Int) → Int × Int × Int
  | _, best, [] => best
  | i, best, (p, r) :: rest =>
      priorityScanAux t (i + 1)
        (if r ≤ 0 then best
         else if t < p.arrivalTime then best
         else if best.2.2 < p.priority then best
         else if p.priority < best.2.2 then ((i : Int), p.burstDuration, p.priority)
         else if best.2.1 ≤ r then best
         else ((i : Int), r, p.priority)) rest

def prioritySelect (ps : List Process) (bl : List Int) (t : Int) : Int × Int × Int :=
  priorityScanAux t 0 (-1, 100000000, 100000000) (ps.zip bl)

/-- One iteration of the `SJFSchedule` loop body (lines 250-312), with the
already-computed `leastJobIndex` as argument.  The Gantt block (lines
275-286) runs before the idle check (lines 288-291), exactly as in the
source. -/
def sjfTickAux (st : SimState) (j : Int) : SimState :=
  let cond := st.lastGantIndex ≠ j ∨ st.timestep = st.totalBurstTime - 1
  let gantt' := if cond then
      (if st.lastGantIndex = -1 then st.gantt
       else st.gantt ++ [⟨(st.processes.getD st.lastGantIndex.toNat default).processID,
                          st.lastGantStartTime, st.timestep⟩])
    else st.gantt
  let lgi' := if cond then j else st.lastGantIndex
  let lgs' := if cond then st.timestep else st.lastGantStartTime
  if j = -1 then
    { st with timestep := st.timestep + 1, totalBurstTime := st.totalBurstTime + 1,
              gantt := gantt', lastGantIndex := lgi', lastGantStartTime := lgs' }
  else
    let jn := j.toNat
    let p := st.processes.getD jn default
    let r' := st.burstLeft.getD jn 0 - 1
    let bl' := st.burstLeft.set jn r'
    if r' = 0 then
      { st with timestep := st.timestep + 1, burstLeft := bl', gantt := gantt',
                lastGantIndex := lgi', lastGantStartTime := lgs',
                totalTurnaround := st.totalTurnaround + ((st.timestep + 1) - p.arrivalTime),
                totalWait := st.totalWait + ((st.timestep + 1) - p.arrivalTime - p.burstDuration),
                rows := st.rows.set jn (some ⟨p.processID, p.priority, p.burstDuration,
                  p.arrivalTime, (st.timestep + 1) - p.arrivalTime - p.burstDuration,
                  (st.timestep + 1) - p.arrivalTime, st.timestep + 1⟩),
                lastCompletion := p.burstDuration + p.arrivalTime +
                  ((st.timestep + 1) - p.arrivalTime - p.burstDuration) }
    else
      { st with timestep := st.timestep + 1, burstLeft := bl', gantt := gantt',
                lastGantIndex := lgi', lastGantStartTime := lgs' }

def sjfTick (st : SimState) : SimState :=
  sjfTickAux st (sjfSelect st.processes st.burstLeft st.timestep).1

/-- One iteration of the `SJFPrioritySchedule` loop body (lines 148-224).
Unlike `SJFSchedule`, the idle check (lines 187-190) comes before the
Gantt block (lines 192-203), so an idle tick never closes a slice. -/
def priorityTickAux (st : SimState) (j : Int) : SimState :=
  if j = -1 then
    { st with timestep := st.timestep + 1, totalBurstTime := st.totalBurstTime + 1 }
  else
    let cond := st.lastGantIndex ≠ j ∨ st.timestep = st.totalBurstTime - 1
    let gantt' := if cond then
        (if st.lastGantIndex = -1 then st.gantt
         else st.gantt ++ [⟨(st.processes.getD st.lastGantIndex.toNat default).processID,
                            st.lastGantStartTime, st.timestep⟩])
      else st.gantt
    let lgi' := if cond then j else st.lastGantIndex
    let lgs' := if cond then st.timestep else st.lastGantStartTime
    let jn := j.toNat
    let p := st.processes.getD jn default
    let r' := st.burstLeft.getD jn 0 - 1
    let bl' := st.burstLeft.set jn r'
    if r' = 0 then
      { st with timestep := st.timestep + 1, burstLeft := bl', gantt := gantt',
                lastGantIndex := lgi', lastGantStartTime := lgs',
                totalTurnaround := st.totalTurnaround + ((st.timestep + 1) - p.arrivalTime),
                totalWait := st.totalWait + ((st.timestep + 1) - p.arrivalTime - p.burstDuration),
                rows := st.rows.set jn (some ⟨p.processID, p.priority, p.burstDuration,
                  p.arrivalTime, (st.timestep + 1) - p.arrivalTime - p.burstDuration,
                  (st.timestep + 1) - p.arrivalTime, st.timestep + 1⟩),
                lastCompletion := p.burstDuration + p.arrivalTime +
                  ((st.timestep + 1) - p.arrivalTime - p.burstDuration) }
    else
      { st with timestep := st.timestep + 1, burstLeft := bl', gantt := gantt',
                lastGantIndex := lgi', lastGantStartTime := lgs' }

def priorityTick (st : SimState) : SimState :=
  priorityTickAux st (prioritySelect st.processes st.burstLeft st.timestep).1

/-- The `for timestep := 0; timestep < totalBurstTime; timestep++` loop,
fuelled: `none` means the loop has not exited within `fuel` iterations
(the Go loop bound is mutated from inside the body, so the loop need not
terminate). -/
def simLoop (tick : SimState → SimState) : Nat → SimState → Option SimState
  | 0, st => if st.timestep < st.totalBurstTime then none else some st
  | fuel + 1, st =>
      if st.timestep < st.totalBurstTime then simLoop tick fuel (tick st) else some st

def sjfRun (fuel : Nat) (ps : List Process) : Option SimState :=
  simLoop sjfTick fuel (simInit ps)

def priorityRun (fuel : Nat) (ps : List Process) : Option SimState :=
  simLoop priorityTick fuel (simInit ps)

/-- The three values `SJFSchedule` passes to `outputSchedule` (line 317):
`totalWait/count`, `totalTurnaround/count`, and — in the throughput
position — `lastCompletion/count`. -/
def sjfStats (fuel : Nat) (ps : List Process) : Option AggregateStats :=
  (sjfRun fuel ps).map fun st =>
    { averageWait := fdiv (st.totalWait : Rat) (ps.length : Rat)
      averageTurnaround := fdiv (st.totalTurnaround : Rat) (ps.length : Rat)
      throughput := fdiv (st.lastCompletion : Rat) (ps.length : Rat) }

/-- The three values `SJFPrioritySchedule` passes to `outputSchedule`
(line 229), identical in shape to `sjfStats`. -/
def priorityStats (fuel : Nat) (ps : List Process) : Option AggregateStats :=
  (priorityRun fuel ps).map fun st =>
    { averageWait := fdiv (st.totalWait : Rat) (ps.length : Rat)
      averageTurnaround := fdiv (st.totalTurnaround : Rat) (ps.length : Rat)
      throughput := fdiv (st.lastCompletion : Rat) (ps.length : Rat) }

/-! ## RRSchedule (lines 320-390) -/

/-- State of `RRSchedule`.  Unlike the other schedulers, `processes` here
is written: the initial double loop reorders the caller's slice in place
and the main loop decrements `processes[i].BurstDuration`. -/
structure RRState where
  processes : List Process
  burstInit : List Int
  timestep : Int
  totalBurstTime : Int
  rows : List (Option ResultRow)
  gantt : List TimeSlice
  ranProcess : Bool
deriving DecidableEq, Repr

/-- One comparison/swap of the reordering double loop (lines 332-338):
`processes[i], processes[j] = processes[j], processes[i]` whenever
`processes[i].ArrivalTime > processes[j].ArrivalTime`. -/
def swapIfGreater (ps : List Process) (i j : Nat) : List Process :=
  if (ps.getD j default).arrivalTime < (ps.getD i default).arrivalTime then
    (ps.set i (ps.getD j default)).set j (ps.getD i default)
  else ps

/-- The in-place reordering of the caller's slice by arrival time
(lines 332-338): for each `i`, swap with every later `j` holding an
earlier arrival. -/
def rrSort (ps : List Process) : List Process :=
  (List.range ps.length).foldl
    (fun acc i => (List.range' i (ps.length - i)).foldl
      (fun acc2 j => swapIfGreater acc2 i j) acc)
    ps

/-- The body of `for i := range processes` inside the RR main loop
(lines 347-376): skip if not arrived or no burst left, otherwise
decrement `processes[i].BurstDuration` in place, advance `timestep`,
rewrite `schedule[i]` and append a unit Gantt slice. -/
def rrInner (st : RRState) (i : Nat) : RRState :=
  let p := st.processes.getD i default
  if st.timestep < p.arrivalTime then st
  else if p.burstDuration ≤ 0 then st
  else
    let t := st.timestep + 1
    { st with
      processes := st.processes.set i { p with burstDuration := p.burstDuration - 1 }
      timestep := t
      ranProcess := true
      rows := st.rows.set i (some ⟨p.processID, p.priority, st.burstInit.getD i 0,
        p.arrivalTime, (t + 1) - p.arrivalTime - st.burstInit.getD i 0,
        (t + 1) - p.arrivalTime, t + 1⟩)
      gantt := st.gantt ++ [⟨p.processID, t - 1, t⟩] }

/-- One pass of the outer RR loop (lines 345-384): reset `ranProcess`,
scan every index, then on an idle pass advance both `timestep` and the
loop bound. -/
def rrStep (st : RRState) : RRState :=
  let st' := (List.range st.processes.length).foldl rrInner { st with ranProcess := false }
  if st'.ranProcess then st'
  else { st' with timestep := st'.timestep + 1, totalBurstTime := st'.totalBurstTime + 1 }

/-- The fuelled outer loop `for timestep := 0; timestep < totalBurstTime`
of `RRSchedule`. -/
def rrLoop : Nat → RRState → Option RRState
  | 0, st => if st.timestep < st.totalBurstTime then none else some st
  | fuel + 1, st =>
      if st.timestep < st.totalBurstTime then rrLoop fuel (rrStep st) else some st

/-- `RRSchedule` up to its output calls: reorder the caller's slice, record
`processBurstInit` and `totalBurstTime` (lines 340-343), then run the main
loop.  The final state's `processes` field is what the caller's slice
holds after the call. -/
def rrRun (fuel : Nat) (ps : List Process) : Option RRState :=
  let sorted := rrSort ps
  rrLoop fuel
    { processes := sorted
      burstInit := sorted.map (·.burstDuration)
      timestep := 0
      totalBurstTime := (sorted.map (·.burstDuration)).sum
      rows := sorted.map fun _ => none
      gantt := []
      ranProcess := false }

/-! ## Specification-side predicates -/

/-- Index `l` denotes an eligible process at time `t`: in range, some
burst remaining, and already arrived (spec section 3). -/
def EligIdx (ps : List Process) (bl : List Int) (t : Int) (l : Nat) : Prop :=
  l < ps.length ∧ l < bl.length ∧ 0 < bl.getD l 0 ∧ (ps.getD l default).arrivalTime ≤ t

instance (ps : List Process) (bl : List Int) (t : Int) (l : Nat) :
    Decidable (EligIdx ps bl t l) := by unfold EligIdx; infer_instance

/-- The default pair used when indexing zipped (process, remaining) lists. -/
def dfltPR : Process × Int := (default, 0)

/-- Eligibility stated over the zipped list that the scans traverse. -/
def EligAt (t : Int) (items : List (Process × Int)) (l : Nat) : Prop :=
  l < items.length ∧ 0 < (items.getD l dfltPR).2 ∧ (items.getD l dfltPR).1.arrivalTime ≤ t

instance (t : Int) (items : List (Process × Int)) (l : Nat) :
    Decidable (EligAt t items l) := by unfold EligAt; infer_instance

/-- Total Gantt duration: the sum of `stop - start` over all slices. -/
def ganttDuration (g : List TimeSlice) : Int := (g.map fun s => s.stop - s.start).sum

/-- Well-formed input for the termination theorem: non-negative arrivals
and bursts that are positive and below the `100000000` scan sentinel. -/
def WellFormed (ps : List Process) : Prop :=
  ∀ p ∈ ps, 0 ≤ p.arrivalTime ∧ 0 < p.burstDuration ∧ p.burstDuration < 100000000

/-- The loop invariant of the SJF simulation. -/
def SimInv (st : SimState) : Prop :=
  st.burstLeft.length = st.processes.length ∧
  (∀ r ∈ st.burstLeft, 0 ≤ r) ∧
  (∀ i, i < st.burstLeft.length →
    st.burstLeft.getD i 0 ≤ (st.processes.getD i default).burstDuration) ∧
  st.totalBurstTime = st.timestep + st.burstLeft.sum ∧
  0 ≤ st.timestep

/-- Greatest arrival time in the input (0 for an empty list). -/
def maxArrival (ps : List Process) : Int := (ps.map (·.arrivalTime)).foldr max 0

/-- Termination measure for the SJF loop: remaining work plus the time
still to pass before the latest arrival. -/
def simMeasure (st : SimState) : Nat :=
  st.burstLeft.sum.toNat + (maxArrival st.processes - st.timestep).toNat

/-- Invariant of the RR main loop: the loop bound always equals the
current time plus the remaining work, and bursts never go negative. -/
def RRInv (st : RRState) : Prop :=
  st.totalBurstTime = st.timestep + (st.processes.map (·.burstDuration)).sum ∧
  ∀ p ∈ st.processes, 0 ≤ p.burstDuration

/-! ## Concrete example inputs -/

/-- The FCFS example of the spec: arrivals (0,0,0), bursts (3,4,2). -/
def exThree : List Process := [⟨1, 0, 3, 0⟩, ⟨2, 0, 4, 0⟩, ⟨3, 0, 2, 0⟩]

/-- A single process arriving at time 5 with burst 1. -/
def exLate : List Process := [⟨1, 5, 1, 0⟩]

/-- A single process arriving at 0 with burst 3. -/
def exSingle3 : List Process := [⟨1, 0, 3, 0⟩]

/-- A single process arriving at 0 with burst 2. -/
def exSingle2 : List Process := [⟨1, 0, 2, 0⟩]

/-- A single process arriving at 0 with burst 1. -/
def exSingle1 : List Process := [⟨1, 0, 1, 0⟩]

/-- Two processes of equal priority 1: bursts 5 (arrival 0) and 4
(arrival 2). -/
def exPrio : List Process := [⟨1, 0, 5, 1⟩, ⟨2, 2, 4, 1⟩]

/-- The priority simulation state reached after two timesteps on
`exPrio`. -/
def exPrioState : SimState := priorityTick (priorityTick (simInit exPrio))

/-- A single process whose burst equals the scan sentinel 100000000. -/
def exSentinel : List Process := [⟨1, 0, 100000000, 0⟩]

/-- Two processes out of arrival order: (id 1, arrival 3, burst 1) then
(id 2, arrival 0, burst 2). -/
def exRR : List Process := [⟨1, 3, 1, 0⟩, ⟨2, 0, 2, 0⟩]

/-! ## List helper lemmas -/

theorem list_getD_set_self {α : Type} (l : List α) (k : Nat) (v d : α) (h : k < l.length) :
    (l.set k v).getD k d = v := by
  induction l generalizing k with
  | nil => simp at h
  | cons x xs ih =>
      cases k with
      | zero => rfl
      | succ n => simpa using ih n (by simpa using h)

theorem list_getD_set_ne {α : Type} (l : List α) (k n : Nat) (v d : α) (h : k ≠ n) :
    (l.set n v).getD k d = l.getD k d := by
  induction l generalizing k n with
  | nil => rfl
  | cons x xs ih =>
      cases n with
      | zero => cases k with
          | zero => exact absurd rfl h
          | succ m => rfl
      | succ n' => cases k with
          | zero => rfl
          | succ m => simpa using ih m n' (fun hc => h (by rw [hc]))

theorem list_sum_set (l : List Int) (k : Nat) (v : Int) (h : k < l.length) :
    (l.set k v).sum = l.sum - l.getD k 0 + v := by
  induction l generalizing k with
  | nil => simp at h
  | cons x xs ih =>
      cases k with
      | zero => simp [List.getD]; ring
      | succ n =>
          have := ih n (by simpa using h)
          simp only [List.set, List.sum_cons, this]
          simp [List.getD]
          ring

theorem list_getD_mem {α : Type} (l : List α) (i : Nat) (d : α) (h : i < l.length) :
    l.getD i d ∈ l := by
  induction l generalizing i with
  | nil => simp at h
  | cons x xs ih =>
      cases i with
      | zero => simp [List.getD]
      | succ n => exact List.mem_cons_of_mem _ (ih n (by simpa using h))

theorem list_getD_map (ps : List Process) (i : Nat) (f : Process → Int) (h : i < ps.length) :
    (ps.map f).getD i 0 = f (ps.getD i default) := by
  induction ps generalizing i with
  | nil => simp at h
  | cons x xs ih =>
      cases i with
      | zero => rfl
      | succ n => simpa using ih n (by simpa using h)

theorem zip_getD (ps : List Process) (bs : List Int) (i : Nat)
    (h1 : i < ps.length) (h2 : i < bs.length) :
    (ps.zip bs).getD i dfltPR = (ps.getD i default, bs.getD i 0) := by
  induction ps generalizing bs i with
  | nil => simp at h1
  | cons x xs ih =>
      cases bs with
      | nil => simp at h2
      | cons y ys =>
          cases i with
          | zero => rfl
          | succ n =>
              simpa using ih ys n (by simpa using h1) (by simpa using h2)

theorem le_sum_of_mem (l : List Int) (x : Int) (hnn : ∀ r ∈ l, 0 ≤ r) (hx : x ∈ l) :
    x ≤ l.sum := by
  induction l with
  | nil => simp at hx
  | cons y ys ih =>
      rcases List.mem_cons.1 hx with h | h
      · subst h
        have : 0 ≤ ys.sum := List.sum_nonneg fun r hr => hnn r (List.mem_cons_of_mem _ hr)
        simp only [List.sum_cons]
        omega
      · have := ih (fun r hr => hnn r (List.mem_cons_of_mem _ hr)) h
        have hy : 0 ≤ y := hnn y (List.mem_cons_self _ _)
        simp only [List.sum_cons]
        omega

theorem exists_pos_of_sum_pos (l : List Int) (h : 0 < l.sum) :
    ∃ i, i < l.length ∧ 0 < l.getD i 0 := by
  induction l with
  | nil => simp at h
  | cons x xs ih =>
      by_cases hx : 0 < x
      · exact ⟨0, by simp, by simpa [List.getD] using hx⟩
      · have : 0 < xs.sum := by simp only [List.sum_cons] at h; omega
        obtain ⟨i, hi, hpos⟩ := ih this
        exact ⟨i + 1, by simpa using hi, by simpa using hpos⟩

theorem maxArrival_le (ps : List Process) (p : Process) (hp : p ∈ ps) :
    p.arrivalTime ≤ maxArrival ps := by
  induction ps with
  | nil => simp at hp
  | cons x xs ih =>
      rcases List.mem_cons.1 hp with h | h
      · subst h
        exact le_max_left _ _
      · exact le_trans (ih h) (by unfold maxArrival; exact le_max_right _ _)

theorem foldl_preserve {α β : Type} (f : α → β → α) (P : α → Prop)
    (hf : ∀ a b, P a → P (f a b)) :
    ∀ (l : List β) (a : α), P a → P (l.foldl f a) := by
  intro l
  induction l with
  | nil => intro a ha; exact ha
  | cons x xs ih => intro a ha; exact ih _ (hf a x ha)

/-! ## Characterisation of the SJF selection scan -/

/-- Full characterisation of `sjfScanAux`: either no scanned element is
eligible with a burst below the incoming best (and the accumulator is
returned unchanged), or the result is the first eligible element
achieving the minimum remaining burst among eligible elements. -/
theorem sjfScanAux_spec (t : Int) :
    ∀ (items : List (Process × Int)) (i0 : Nat) (b bt : Int),
      (sjfScanAux t i0 (b, bt) items = (b, bt) ∧
         ∀ l, EligAt t items l → bt ≤ (items.getD l dfltPR).2)
      ∨ (∃ k, EligAt t items k ∧
           sjfScanAux t i0 (b, bt) items = (((i0 + k : Nat) : Int), (items.getD k dfltPR).2) ∧
           (items.getD k dfltPR).2 < bt ∧
           ∀ l, EligAt t items l →
             (items.getD k dfltPR).2 ≤ (items.getD l dfltPR).2 ∧
               (l < k → (items.getD k dfltPR).2 < (items.getD l dfltPR).2)) := by
  intro items
  induction items with
  | nil =>
      intro i0 b bt
      left
      exact ⟨rfl, fun l hl => absurd hl.1 (by simp)⟩
  | cons hd tl ih =>
      intro i0 b bt
      obtain ⟨p, r⟩ := hd
      by_cases helig : 0 < r ∧ p.arrivalTime ≤ t ∧ r < bt
      · -- the head strictly improves the accumulator
        obtain ⟨hr, harr, hlt⟩ := helig
        have hstep : sjfScanAux t i0 (b, bt) ((p, r) :: tl)
            = sjfScanAux t (i0 + 1) ((i0 : Int), r) tl := by
          simp only [sjfScanAux]
          rw [if_neg (by omega), if_neg (by omega), if_neg (by simp; omega)]
        rcases ih (i0 + 1) ((i0 : Int)) r with ⟨heq, hbound⟩ | ⟨k, helk, heq, hklt, hmin⟩
        · right
          refine ⟨0, ⟨by simp, by simpa [List.getD] using hr, by simpa [List.getD] using harr⟩,
                  ?_, by simpa [List.getD] using hlt, ?_⟩
          · rw [hstep, heq]; simp
          · intro l hl
            cases l with
            | zero => simp
            | succ m =>
                have hm : EligAt t tl m := by
                  obtain ⟨h1, h2, h3⟩ := hl
                  exact ⟨by simpa using h1, by simpa using h2, by simpa using h3⟩
                refine ⟨?_, by omega⟩
                simpa [List.getD] using hbound m hm
        · right
          refine ⟨k + 1, ?_, ?_, ?_, ?_⟩
          · obtain ⟨h1, h2, h3⟩ := helk
            exact ⟨by simpa using h1, by simpa using h2, by simpa using h3⟩
          · rw [hstep, heq]
            have h' : i0 + 1 + k = i0 + (k + 1) := by omega
            rw [h']
            simp
          · simp only [List.getD_cons_succ]
            omega
          · intro l hl
            cases l with
            | zero =>
                refine ⟨?_, ?_⟩ <;> simp only [List.getD_cons_succ, List.getD_cons_zero] <;> omega
            | succ m =>
                have hm : EligAt t tl m := by
                  obtain ⟨h1, h2, h3⟩ := hl
                  exact ⟨by simpa using h1, by simpa using h2, by simpa using h3⟩
                have := hmin m hm
                refine ⟨by simpa using this.1, fun hlt2 => ?_⟩
                have : m < k → (tl.getD k dfltPR).2 < (tl.getD m dfltPR).2 := this.2
                simp only [List.getD_cons_succ]
                exact this (by omega)
      · -- the head is skipped
        have hstep : sjfScanAux t i0 (b, bt) ((p, r) :: tl)
            = sjfScanAux t (i0 + 1) (b, bt) tl := by
          simp only [sjfScanAux]
          by_cases h1 : r ≤ 0
          · rw [if_pos h1]
          · rw [if_neg h1]
            by_cases h2 : t < p.arrivalTime
            · rw [if_pos h2]
            · rw [if_neg h2]
              have hbt : bt ≤ r := by
                by_contra hc
                exact helig ⟨by omega, by omega, by omega⟩
              rw [if_pos (show (b, bt).2 ≤ r from hbt)]
        rcases ih (i0 + 1) b bt with ⟨heq, hbound⟩ | ⟨k, helk, heq, hklt, hmin⟩
        · left
          refine ⟨by rw [hstep, heq], ?_⟩
          intro l hl
          cases l with
          | zero =>
              obtain ⟨h1, h2, h3⟩ := hl
              simp only [List.getD_cons_zero] at h2 h3 ⊢
              omega
          | succ m =>
              have hm : EligAt t tl m := by
                obtain ⟨h1, h2, h3⟩ := hl
                exact ⟨by simpa using h1, by simpa using h2, by simpa using h3⟩
              simpa using hbound m hm
        · right
          refine ⟨k + 1, ?_, ?_, by simp only [List.getD_cons_succ]; exact hklt, ?_⟩
          · obtain ⟨h1, h2, h3⟩ := helk
            exact ⟨by simpa using h1, by simpa using h2, by simpa using h3⟩
          · rw [hstep, heq]
            have h' : i0 + 1 + k = i0 + (k + 1) := by omega
            rw [h']
            simp
          · intro l hl
            cases l with
            | zero =>
                obtain ⟨h1, h2, h3⟩ := hl
                simp only [List.getD_cons_zero] at h2 h3 ⊢
                simp only [List.getD_cons_succ]
                omega
            | succ m =>
                have hm : EligAt t tl m := by
                  obtain ⟨h1, h2, h3⟩ := hl
                  exact ⟨by simpa using h1, by simpa using h2, by simpa using h3⟩
                have := hmin m hm
                exact ⟨by simpa using this.1, fun h => by
                  simpa using this.2 (by omega)⟩

/-- Eligibility over the zipped list coincides with `EligIdx` when the
lists have equal length. -/
theorem eligAt_zip (ps : List Process) (bl : List Int) (t : Int) (l : Nat)
    (hlen : bl.length = ps.length) :
    EligAt t (ps.zip bl) l ↔ EligIdx ps bl t l := by
  unfold EligAt EligIdx
  have hz : (ps.zip bl).length = ps.length := by
    rw [List.length_zip, hlen, min_self]
  constructor
  · rintro ⟨h1, h2, h3⟩
    have hp : l < ps.length := hz ▸ h1
    have hb : l < bl.length := by omega
    rw [zip_getD ps bl l hp hb] at h2 h3
    exact ⟨hp, hb, h2, h3⟩
  · rintro ⟨h1, h2, h3, h4⟩
    refine ⟨by omega, ?_, ?_⟩ <;> rw [zip_getD ps bl l h1 h2] <;> assumption

/-- `sjfSelect` characterised: either it returns -1 and every eligible
index has remaining burst at or above the 100000000 sentinel, or it
returns the first eligible index of minimal remaining burst. -/
theorem sjfSelect_spec (ps : List Process) (bl : List Int) (t : Int)
    (hlen : bl.length = ps.length) :
    ((sjfSelect ps bl t).1 = -1 ∧
       ∀ l, EligIdx ps bl t l → 100000000 ≤ bl.getD l 0)
    ∨ (∃ k : Nat, EligIdx ps bl t k ∧ sjfSelect ps bl t = ((k : Int), bl.getD k 0) ∧
         bl.getD k 0 < 100000000 ∧
         ∀ l, EligIdx ps bl t l →
           bl.getD k 0 ≤ bl.getD l 0 ∧ (l < k → bl.getD k 0 < bl.getD l 0)) := by
  have hz : (ps.zip bl).length = ps.length := by
    rw [List.length_zip, hlen, min_self]
  rcases sjfScanAux_spec t (ps.zip bl) 0 (-1) 100000000 with ⟨heq, hbound⟩ |
    ⟨k, helk, heq, hklt, hmin⟩
  · left
    refine ⟨by rw [sjfSelect, heq], ?_⟩
    intro l hl
    have h := hbound l ((eligAt_zip ps bl t l hlen).2 hl)
    rwa [zip_getD ps bl l hl.1 hl.2.1] at h
  · right
    have helk' := (eligAt_zip ps bl t k hlen).1 helk
    have hget : (ps.zip bl).getD k dfltPR = (ps.getD k default, bl.getD k 0) :=
      zip_getD ps bl k helk'.1 helk'.2.1
    refine ⟨k, helk', ?_, by rw [hget] at hklt; exact hklt, ?_⟩
    · rw [sjfSelect, heq, hget]
      simp
    · intro l hl
      have h := hmin l ((eligAt_zip ps bl t l hlen).2 hl)
      rw [hget, zip_getD ps bl l hl.1 hl.2.1] at h
      exact h

/-! Projections of one SJF tick, split on idle vs selected. -/

theorem sjfTickAux_run_timestep (st : SimState) (j : Int) (hj : j ≠ -1) :
    (sjfTickAux st j).timestep = st.timestep + 1 := by
  simp only [sjfTickAux]
  rw [if_neg hj]
  split <;> rfl

theorem sjfTickAux_run_total (st : SimState) (j : Int) (hj : j ≠ -1) :
    (sjfTickAux st j).totalBurstTime = st.totalBurstTime := by
  simp only [sjfTickAux]
  rw [if_neg hj]
  split <;> rfl

theorem sjfTickAux_run_burstLeft (st : SimState) (j : Int) (hj : j ≠ -1) :
    (sjfTickAux st j).burstLeft = st.burstLeft.set j.toNat (st.burstLeft.getD j.toNat 0 - 1) := by
  simp only [sjfTickAux]
  rw [if_neg hj]
  split <;> rfl

theorem sjfTickAux_processes (st : SimState) (j : Int) :
    (sjfTickAux st j).processes = st.processes := by
  simp only [sjfTickAux]
  split
  · rfl
  · split <;> rfl

theorem sjfTickAux_idle_timestep (st : SimState) :
    (sjfTickAux st (-1)).timestep = st.timestep + 1 := rfl

theorem sjfTickAux_idle_total (st : SimState) :
    (sjfTickAux st (-1)).totalBurstTime = st.totalBurstTime + 1 := rfl

theorem sjfTickAux_idle_burstLeft (st : SimState) :
    (sjfTickAux st (-1)).burstLeft = st.burstLeft := rfl

theorem sjfTickAux_rows_complete (st : SimState) (j : Int) (hj : j ≠ -1)
    (hr : st.burstLeft.getD j.toNat 0 - 1 = 0) :
    (sjfTickAux st j).rows = st.rows.set j.toNat
      (some ⟨(st.processes.getD j.toNat default).processID,
             (st.processes.getD j.toNat default).priority,
             (st.processes.getD j.toNat default).burstDuration,
             (st.processes.getD j.toNat default).arrivalTime,
             (st.timestep + 1) - (st.processes.getD j.toNat default).arrivalTime -
               (st.processes.getD j.toNat default).burstDuration,
             (st.timestep + 1) - (st.processes.getD j.toNat default).arrivalTime,
             st.timestep + 1⟩) := by
  simp only [sjfTickAux]
  rw [if_neg hj, if_pos hr]

theorem list_mem_exists_getD {α : Type} (l : List α) (d : α) (x : α) (hx : x ∈ l) :
    ∃ i, i < l.length ∧ l.getD i d = x := by
  induction l with
  | nil => simp at hx
  | cons y ys ih =>
      rcases List.mem_cons.1 hx with h | h
      · exact ⟨0, by simp, by simp [List.getD, h]⟩
      · obtain ⟨i, hi, hg⟩ := ih h
        exact ⟨i + 1, by simpa using hi, by simpa using hg⟩

/-- On the sentinel example the scan always returns `(-1, 100000000)`:
the only process's remaining burst never tests strictly below the
initial `leastJobBurstTime`. -/
theorem sentinel_select (t : Int) :
    sjfSelect exSentinel [100000000] t = (-1, 100000000) := by
  show sjfScanAux t 0 (-1, 100000000) [(⟨1, 0, 100000000, 0⟩, 100000000)] = (-1, 100000000)
  simp only [sjfScanAux]
  split_ifs <;> first | rfl | omega

/-- The SJF loop never exits on the sentinel example: every tick is an
idle tick extending the loop bound. -/
theorem sentinel_loop_none :
    ∀ (fuel : Nat) (st : SimState), st.processes = exSentinel →
      st.burstLeft = [100000000] → st.timestep < st.totalBurstTime →
      simLoop sjfTick fuel st = none := by
  intro fuel
  induction fuel with
  | zero =>
      intro st h1 h2 h3
      rw [simLoop, if_pos h3]
  | succ n ih =>
      intro st h1 h2 h3
      rw [simLoop, if_pos h3]
      have hsel : (sjfSelect st.processes st.burstLeft st.timestep).1 = -1 := by
        rw [h1, h2, sentinel_select]
      have htick : sjfTick st = sjfTickAux st (-1) := by rw [sjfTick, hsel]
      apply ih
      · rw [htick, sjfTickAux_processes, h1]
      · rw [htick, sjfTickAux_idle_burstLeft, h2]
      · rw [htick, sjfTickAux_idle_timestep, sjfTickAux_idle_total]
        omega

/-- One running tick of the SJF loop preserves the invariant, leaves the
caller's process list untouched, and strictly decreases the termination
measure. -/
theorem sjfTick_preserves (st : SimState) (hwf : WellFormed st.processes)
    (hinv : SimInv st) (hrun : st.timestep < st.totalBurstTime) :
    SimInv (sjfTick st) ∧ (sjfTick st).processes = st.processes ∧
      simMeasure (sjfTick st) < simMeasure st := by
  obtain ⟨hlen, hnn, hbd, htot, hts⟩ := hinv
  have hWpos : 0 < st.burstLeft.sum := by omega
  have hbound : ∀ r ∈ st.burstLeft, r < 100000000 := by
    intro r hr
    obtain ⟨i, hi, hg⟩ := list_mem_exists_getD st.burstLeft 0 r hr
    have h1 := hbd i hi
    have h2 := (hwf _ (list_getD_mem st.processes i default (by omega))).2.2
    omega
  rcases sjfSelect_spec st.processes st.burstLeft st.timestep hlen with ⟨hneg, hge⟩ |
    ⟨k, helig, heq, hklt, hmin⟩
  · -- idle tick
    have htick : sjfTick st = sjfTickAux st (-1) := by rw [sjfTick, hneg]
    have hmax : st.timestep < maxArrival st.processes := by
      obtain ⟨i, hi, hpos⟩ := exists_pos_of_sum_pos st.burstLeft hWpos
      have hnel : ¬ EligIdx st.processes st.burstLeft st.timestep i := by
        intro hel
        have h1 := hge i hel
        have h2 := hbound _ (list_getD_mem st.burstLeft i 0 hi)
        omega
      have harr : st.timestep < (st.processes.getD i default).arrivalTime := by
        by_contra hc
        exact hnel ⟨by omega, hi, hpos, by omega⟩
      have := maxArrival_le st.processes _ (list_getD_mem st.processes i default (by omega))
      omega
    have hbl : (sjfTick st).burstLeft = st.burstLeft := by
      rw [htick, sjfTickAux_idle_burstLeft]
    have hstep : (sjfTick st).timestep = st.timestep + 1 := by
      rw [htick, sjfTickAux_idle_timestep]
    have htot' : (sjfTick st).totalBurstTime = st.totalBurstTime + 1 := by
      rw [htick, sjfTickAux_idle_total]
    have hproc : (sjfTick st).processes = st.processes := by
      rw [htick, sjfTickAux_processes]
    refine ⟨⟨?_, ?_, ?_, ?_, ?_⟩, hproc, ?_⟩
    · rw [hbl, hproc]
      exact hlen
    · rw [hbl]
      exact hnn
    · rw [hbl, hproc]
      exact hbd
    · rw [htot', hstep, hbl]
      omega
    · rw [hstep]
      omega
    · unfold simMeasure
      rw [hbl, hstep, hproc]
      omega
  · -- a process runs
    have hsel : (sjfSelect st.processes st.burstLeft st.timestep).1 = ((k : Nat) : Int) := by
      rw [heq]
    have hj : ((k : Nat) : Int) ≠ -1 := by omega
    have htick : sjfTick st = sjfTickAux st ((k : Nat) : Int) := by rw [sjfTick, hsel]
    obtain ⟨hkp, hkb, hkpos, hkarr⟩ := helig
    have hbl : (sjfTick st).burstLeft =
        st.burstLeft.set k (st.burstLeft.getD k 0 - 1) := by
      rw [htick, sjfTickAux_run_burstLeft st _ hj]
      simp
    have hsum : (sjfTick st).burstLeft.sum = st.burstLeft.sum - 1 := by
      rw [hbl, list_sum_set st.burstLeft k _ hkb]
      ring
    have hstep : (sjfTick st).timestep = st.timestep + 1 := by
      rw [htick, sjfTickAux_run_timestep st _ hj]
    have htot' : (sjfTick st).totalBurstTime = st.totalBurstTime := by
      rw [htick, sjfTickAux_run_total st _ hj]
    have hproc : (sjfTick st).processes = st.processes := by
      rw [htick, sjfTickAux_processes]
    refine ⟨⟨?_, ?_, ?_, ?_, ?_⟩, hproc, ?_⟩
    · rw [hbl, hproc, List.length_set]
      exact hlen
    · rw [hbl]
      intro r hr
      rcases List.mem_or_eq_of_mem_set hr with h | h
      · exact hnn r h
      · omega
    · rw [hbl, hproc]
      intro i hi
      rw [List.length_set] at hi
      by_cases hik : i = k
      · subst hik
        rw [list_getD_set_self _ _ _ _ hi]
        have := hbd i hi
        omega
      · rw [list_getD_set_ne _ _ _ _ _ hik]
        exact hbd i hi
    · rw [htot', hsum, hstep]
      omega
    · rw [hstep]
      omega
    · unfold simMeasure
      rw [hsum, hstep, hproc]
      omega

/-- With the invariant established and fuel at least the measure, the
SJF loop exits. -/
theorem simLoop_sjf_exits :
    ∀ (fuel : Nat) (st : SimState), WellFormed st.processes → SimInv st →
      simMeasure st ≤ fuel → ∃ st', simLoop sjfTick fuel st = some st' := by
  intro fuel
  induction fuel with
  | zero =>
      intro st hwf hinv hm
      refine ⟨st, ?_⟩
      rw [simLoop, if_neg ?_]
      obtain ⟨_, _, _, htot, _⟩ := hinv
      unfold simMeasure at hm
      omega
  | succ n ih =>
      intro st hwf hinv hm
      by_cases hrun : st.timestep < st.totalBurstTime
      · obtain ⟨hinv', hproc, hdec⟩ := sjfTick_preserves st hwf hinv hrun
        obtain ⟨st', h⟩ := ih (sjfTick st) (by rw [hproc]; exact hwf) hinv' (by omega)
        exact ⟨st', by rw [simLoop, if_pos hrun]; exact h⟩
      · exact ⟨st, by rw [simLoop, if_neg hrun]⟩

/-! ## Frame lemmas: which schedulers write to the caller's list -/

theorem list_getD_ge_length {α : Type} (l : List α) (k : Nat) (d : α) (h : l.length ≤ k) :
    l.getD k d = d := by
  induction l generalizing k with
  | nil => cases k <;> rfl
  | cons x xs ih =>
      cases k with
      | zero => simp at h
      | succ n => simpa using ih n (by simpa using h)

theorem list_map_set (l : List Process) (i : Nat) (a : Process) (f : Process → Int) :
    (l.set i a).map f = (l.map f).set i (f a) := by
  induction l generalizing i with
  | nil => rfl
  | cons x xs ih => cases i <;> simp [List.set, ih]

theorem getD_burst_nonneg (l : List Process) (k : Nat)
    (h : ∀ p ∈ l, 0 ≤ p.burstDuration) : 0 ≤ (l.getD k default).burstDuration := by
  by_cases hk : k < l.length
  · exact h _ (list_getD_mem l k default hk)
  · rw [list_getD_ge_length l k default (by omega)]
    decide

theorem swapIfGreater_nonneg (ps : List Process) (i j : Nat)
    (h : ∀ p ∈ ps, 0 ≤ p.burstDuration) :
    ∀ p ∈ swapIfGreater ps i j, 0 ≤ p.burstDuration := by
  intro p hp
  unfold swapIfGreater at hp
  split at hp
  · rcases List.mem_or_eq_of_mem_set hp with hp2 | hp2
    · rcases List.mem_or_eq_of_mem_set hp2 with hp3 | hp3
      · exact h p hp3
      · rw [hp3]
        exact getD_burst_nonneg ps j h
    · rw [hp2]
      exact getD_burst_nonneg ps i h
  · exact h p hp

theorem rrSort_nonneg (ps : List Process) (h : ∀ p ∈ ps, 0 ≤ p.burstDuration) :
    ∀ p ∈ rrSort ps, 0 ≤ p.burstDuration := by
  unfold rrSort
  refine foldl_preserve _ (fun l : List Process => ∀ p ∈ l, 0 ≤ p.burstDuration) ?_ _ _ h
  intro acc i hacc
  exact foldl_preserve _ (fun l : List Process => ∀ p ∈ l, 0 ≤ p.burstDuration)
    (fun acc2 j hacc2 => swapIfGreater_nonneg acc2 i j hacc2) _ _ hacc

theorem rrInner_inv (st : RRState) (i : Nat) (h : RRInv st) : RRInv (rrInner st i) := by
  obtain ⟨htot, hnn⟩ := h
  simp only [rrInner]
  split
  · exact ⟨htot, hnn⟩
  · split
    · exact ⟨htot, hnn⟩
    · rename_i harr hburst
      have hpos : 0 < (st.processes.getD i default).burstDuration := by omega
      have hlt : i < st.processes.length := by
        by_contra hc
        rw [list_getD_ge_length st.processes i default (by omega)] at hpos
        exact absurd hpos (by decide)
      constructor
      · show st.totalBurstTime = st.timestep + 1 + _
        rw [list_map_set,
            list_sum_set _ i _ (by rw [List.length_map]; exact hlt),
            list_getD_map st.processes i _ hlt]
        dsimp only
        omega
      · intro q hq
        rcases List.mem_or_eq_of_mem_set hq with hq2 | hq2
        · exact hnn q hq2
        · rw [hq2]
          show 0 ≤ (st.processes.getD i default).burstDuration - 1
          omega

theorem rrStep_inv (st : RRState) (h : RRInv st) : RRInv (rrStep st) := by
  simp only [rrStep]
  have h1 : RRInv ((List.range st.processes.length).foldl rrInner
      { st with ranProcess := false }) :=
    foldl_preserve rrInner RRInv (fun a b ha => rrInner_inv a b ha) _ _ ⟨h.1, h.2⟩
  split
  · exact h1
  · obtain ⟨ht, hn⟩ := h1
    refine ⟨?_, ?_⟩
    · show RRState.totalBurstTime _ = _
      dsimp only
      omega
    · intro q hq
      exact hn q hq

theorem rrLoop_inv :
    ∀ (fuel : Nat) (st st' : RRState), rrLoop fuel st = some st' → RRInv st →
      RRInv st' ∧ st'.totalBurstTime ≤ st'.timestep := by
  intro fuel
  induction fuel with
  | zero =>
      intro st st' h hinv
      rw [rrLoop] at h
      split at h
      · exact Option.noConfusion h
      · injection h with h
        subst h
        exact ⟨hinv, by omega⟩
  | succ n ih =>
      intro st st' h hinv
      rw [rrLoop] at h
      split at h
      · exact ih _ _ h (rrStep_inv st hinv)
      · injection h with h
        subst h
        exact ⟨hinv, by omega⟩

theorem priorityTickAux_processes (st : SimState) (j : Int) :
    (priorityTickAux st j).processes = st.processes := by
  simp only [priorityTickAux]
  split
  · rfl
  · split <;> rfl

theorem simLoop_processes (tick : SimState → SimState)
    (htick : ∀ s, (tick s).processes = s.processes) :
    ∀ (fuel : Nat) (st st' : SimState), simLoop tick fuel st = some st' →
      st'.processes = st.processes := by
  intro fuel
  induction fuel with
  | zero =>
      intro st st' h
      rw [simLoop] at h
      split at h
      · exact Option.noConfusion h
      · injection h with h
        rw [← h]
  | succ n ih =>
      intro st st' h
      rw [simLoop] at h
      split at h
      · rw [ih _ _ h, htick]
      · injection h with h
        rw [← h]

theorem fcfsRun_processes (ps : List Process) : (fcfsRun ps).processes = ps :=
  foldl_preserve fcfsStep (fun a => a.processes = ps)
    (fun a b ha => by rw [← ha]; rfl) ps ⟨ps, 0, 0, 0, 0, 0, [], []⟩ rfl

/-! ## Claim theorems -/

/-- C1.  On the spec's own FCFS example — arrivals (0,0,0), bursts
(3,4,2) — the code's completion times are 3, 4, 2, not the 3, 7, 9 the
claim states: because `waitingTime` is only reassigned when
`ArrivalTime > 0`, a zero-arrival process never accumulates the service
time of its predecessors.  (The first process's wait is 0, as claimed.) -/
theorem fcfs_example_completions :
    (fcfsRun exThree).rows.map (·.completionTime) = [3, 4, 2] ∧
    ([3, 4, 2] : List Int) ≠ [3, 7, 9] ∧
    (fcfsRun exThree).rows.map (·.waitTime) = [0, 0, 0] := by decide

/-- C2.  The throughput slot is not `processCount / lastCompletionTime`:
`SJFSchedule` and `SJFPrioritySchedule` pass `lastCompletion / count`
(for one process with burst 2 they report 2, while the claim demands
1/2), and `FCFSSchedule` divides by the completion of the last process in
input order (2 on the three-process example) rather than of the last
process to finish (4). -/
theorem throughput_inverted :
    sjfStats 5 exSingle2 = some ⟨some 0, some 2, some 2⟩ ∧
    priorityStats 5 exSingle2 = some ⟨some 0, some 2, some 2⟩ ∧
    (2 : Rat) ≠ (exSingle2.length : Rat) / 2 ∧
    (fcfsStats exThree).throughput = some ((3 : Rat) / 2) ∧
    ((fcfsRun exThree).rows.map (·.completionTime)).foldr max 0 = 4 ∧
    ((3 : Rat) / 2) ≠ (exThree.length : Rat) / 4 := by
  refine ⟨?_, ?_, ?_, ?_, by decide, ?_⟩
  · have h : sjfRun 5 exSingle2 = some (sjfTick (sjfTick (simInit exSingle2))) := by decide
    have h2 : (sjfTick (sjfTick (simInit exSingle2))).totalWait = 0 := by decide
    have h3 : (sjfTick (sjfTick (simInit exSingle2))).totalTurnaround = 2 := by decide
    have h4 : (sjfTick (sjfTick (simInit exSingle2))).lastCompletion = 2 := by decide
    rw [sjfStats, h]
    simp only [Option.map_some', Option.some.injEq]
    rw [h2, h3, h4]
    norm_num [fdiv, exSingle2]
  · have h : priorityRun 5 exSingle2 =
        some (priorityTick (priorityTick (simInit exSingle2))) := by decide
    have h2 : (priorityTick (priorityTick (simInit exSingle2))).totalWait = 0 := by decide
    have h3 : (priorityTick (priorityTick (simInit exSingle2))).totalTurnaround = 2 := by decide
    have h4 : (priorityTick (priorityTick (simInit exSingle2))).lastCompletion = 2 := by decide
    rw [priorityStats, h]
    simp only [Option.map_some', Option.some.injEq]
    rw [h2, h3, h4]
    norm_num [fdiv, exSingle2]
  · norm_num [exSingle2]
  · have h : (fcfsRun exThree).lastCompletion = 2 := by decide
    simp only [fcfsStats]
    rw [h]
    norm_num [fdiv, exThree]
  · norm_num [exThree]

/-- C3.  At the reachable timestep 2 of `SJFPrioritySchedule` on two
equal-priority processes with remaining bursts 3 and 4, the scan selects
index 1 (remaining 4) over index 0 (remaining 3, eligible, equal
priority): when a lower priority wins, the code records the candidate's
full `BurstDuration` instead of its remaining burst, so later
equal-priority comparisons are made against the wrong value. -/
theorem priority_select_uses_full_burst :
    exPrioState.timestep = 2 ∧ exPrioState.burstLeft = [3, 4] ∧
    (prioritySelect exPrio exPrioState.burstLeft exPrioState.timestep).1 = 1 ∧
    EligIdx exPrio exPrioState.burstLeft exPrioState.timestep 0 ∧
    (exPrio.getD 0 default).priority = (exPrio.getD 1 default).priority ∧
    exPrioState.burstLeft.getD 0 0 < exPrioState.burstLeft.getD 1 0 := by decide

/-- C4, counterexample.  At timestep 0 of `SJFSchedule` on a single
process of burst 100000000, index 0 is eligible but the scan selects
nothing (`leastJobIndex` stays -1), because the remaining burst is not
strictly below the `100000000` initial value of `leastJobBurstTime`: the
claim that the eligible process with the smallest remaining burst is
selected fails as stated. -/
theorem sjf_select_sentinel_counterexample :
    EligIdx exSentinel (simInit exSentinel).burstLeft (simInit exSentinel).timestep 0 ∧
    (sjfSelect exSentinel (simInit exSentinel).burstLeft (simInit exSentinel).timestep).1 = -1 ∧
    (sjfSelect exSentinel (simInit exSentinel).burstLeft (simInit exSentinel).timestep).1
      < 0 := by decide

/-- C4, amended: provided every remaining burst is strictly below the
100000000 sentinel the scan initialises `leastJobBurstTime` with, then
(1) whenever some process is eligible, `sjfSelect` returns an eligible
index of minimal remaining burst, with ties resolved to the lowest scan
index, and (2) whenever the selected process's remaining burst reaches 0
on this tick, its schedule row is written with
`completionTime = timestep + 1`, `waitTime = completion − arrival − burst`
and `turnaroundTime = completion − arrival`. -/
theorem sjf_select_min_remaining (st : SimState)
    (hlen : st.burstLeft.length = st.processes.length)
    (hrows : st.rows.length = st.processes.length)
    (hbound : ∀ r ∈ st.burstLeft, r < 100000000) :
    ((∃ l, EligIdx st.processes st.burstLeft st.timestep l) →
      ∃ k : Nat, (sjfSelect st.processes st.burstLeft st.timestep).1 = (k : Int) ∧
        EligIdx st.processes st.burstLeft st.timestep k ∧
        ∀ l, EligIdx st.processes st.burstLeft st.timestep l →
          st.burstLeft.getD k 0 ≤ st.burstLeft.getD l 0 ∧
            (st.burstLeft.getD l 0 = st.burstLeft.getD k 0 → k ≤ l)) ∧
    (∀ k : Nat, (sjfSelect st.processes st.burstLeft st.timestep).1 = (k : Int) →
      st.burstLeft.getD k 0 = 1 →
      (sjfTick st).rows.getD k none =
        some ⟨(st.processes.getD k default).processID,
              (st.processes.getD k default).priority,
              (st.processes.getD k default).burstDuration,
              (st.processes.getD k default).arrivalTime,
              (st.timestep + 1) - (st.processes.getD k default).arrivalTime -
                (st.processes.getD k default).burstDuration,
              (st.timestep + 1) - (st.processes.getD k default).arrivalTime,
              st.timestep + 1⟩) := by
  constructor
  · intro ⟨l, hl⟩
    rcases sjfSelect_spec st.processes st.burstLeft st.timestep hlen with ⟨hneg, hge⟩ |
      ⟨k, helig, heq, hlt, hmin⟩
    · exfalso
      have h1 := hge l hl
      have h2 := hbound _ (list_getD_mem st.burstLeft l 0 hl.2.1)
      omega
    · refine ⟨k, by rw [heq], helig, fun l hl => ⟨(hmin l hl).1, fun heqv => ?_⟩⟩
      by_contra hc
      have := (hmin l hl).2 (by omega)
      omega
  · intro k hsel hone
    rcases sjfSelect_spec st.processes st.burstLeft st.timestep hlen with ⟨hneg, _⟩ |
      ⟨k0, helig, heq, _, _⟩
    · rw [hneg] at hsel
      omega
    · have hkk : k0 = k := by
        rw [heq] at hsel
        simp only [Prod.fst] at hsel
        exact_mod_cast hsel
      subst hkk
      have hj : ((k0 : Nat) : Int) ≠ -1 := by omega
      have htick : sjfTick st = sjfTickAux st ((k0 : Nat) : Int) := by
        rw [sjfTick, hsel]
      rw [htick, sjfTickAux_rows_complete st _ hj (by simp only [Int.toNat_natCast]; omega)]
      simp only [Int.toNat_natCast]
      rw [list_getD_set_self]
      rw [hrows]
      exact helig.1

/-- C4, witness: on a single eligible process of burst 1 at timestep 0,
the amended theorem yields the selected index and the completed row. -/
theorem sjf_select_min_remaining_witness :
    (∃ k : Nat, (sjfSelect (simInit exSingle1).processes (simInit exSingle1).burstLeft
        (simInit exSingle1).timestep).1 = (k : Int) ∧
      EligIdx (simInit exSingle1).processes (simInit exSingle1).burstLeft
        (simInit exSingle1).timestep k ∧
      ∀ l, EligIdx (simInit exSingle1).processes (simInit exSingle1).burstLeft
          (simInit exSingle1).timestep l →
        (simInit exSingle1).burstLeft.getD k 0 ≤ (simInit exSingle1).burstLeft.getD l 0 ∧
          ((simInit exSingle1).burstLeft.getD l 0 = (simInit exSingle1).burstLeft.getD k 0 →
            k ≤ l)) ∧
    (sjfTick (simInit exSingle1)).rows.getD 0 none =
      some ⟨((simInit exSingle1).processes.getD 0 default).processID,
            ((simInit exSingle1).processes.getD 0 default).priority,
            ((simInit exSingle1).processes.getD 0 default).burstDuration,
            ((simInit exSingle1).processes.getD 0 default).arrivalTime,
            ((simInit exSingle1).timestep + 1) -
              ((simInit exSingle1).processes.getD 0 default).arrivalTime -
              ((simInit exSingle1).processes.getD 0 default).burstDuration,
            ((simInit exSingle1).timestep + 1) -
              ((simInit exSingle1).processes.getD 0 default).arrivalTime,
            (simInit exSingle1).timestep + 1⟩ := by
  have h := sjf_select_min_remaining (simInit exSingle1) (by decide) (by decide) (by decide)
  exact ⟨h.1 ⟨0, by decide⟩, h.2 0 (by decide) (by decide)⟩

/-- C5.  For a single process with burst 3, `SJFSchedule` emits the single
Gantt slice [0, 2): the slice closed on the final timestep stops at
`timestep`, and the final unit of work is never covered, so the summed
slice durations are 2 while the bursts sum to 3. -/
theorem gantt_loses_final_unit :
    (sjfRun 10 exSingle3).map (fun st => ganttDuration st.gantt) = some 2 ∧
    (exSingle3.map (·.burstDuration)).sum = 3 ∧
    (2 : Int) ≠ 3 := by decide

/-- C6.  On the three-process zero-arrival example, `FCFSSchedule` emits
the slices [0,3), [0,7), [0,9): the first two overlap (both contain time
0) and adjacent slices do not satisfy `stop = next.start`, because each
slice's start is computed from the stale `waitingTime`. -/
theorem fcfs_gantt_overlaps :
    (fcfsRun exThree).gantt = [⟨1, 0, 3⟩, ⟨2, 0, 7⟩, ⟨3, 0, 9⟩] ∧
    ((fcfsRun exThree).gantt.getD 1 default).start <
      ((fcfsRun exThree).gantt.getD 0 default).stop ∧
    ((fcfsRun exThree).gantt.getD 0 default).start <
      ((fcfsRun exThree).gantt.getD 1 default).stop := by decide

/-- C7.  A single FCFS process arriving at time 5 with burst 1 gets
`waitTime = 0 - 5 = -5 < 0` (no `max(0, _)` clamp in the code), refuting
`waitTime >= 0`; its turnaround is -4 and its completion 1. -/
theorem fcfs_negative_wait :
    ((fcfsRun exLate).rows.getD 0 default).waitTime = -5 ∧
    ((fcfsRun exLate).rows.getD 0 default).waitTime < 0 ∧
    ((fcfsRun exLate).rows.getD 0 default).turnaroundTime = -4 := by decide

/-- C9, counterexample.  A single process with arrival 0 and burst
100000000 satisfies the claim's hypotheses (arrival >= 0, burst > 0), yet
the `SJFSchedule` loop never terminates on it: the scan never selects the
process (its remaining burst is not strictly below the initial
`leastJobBurstTime` of 100000000), so every tick is an idle tick that
extends the loop bound by one. -/
theorem sjf_divergence_at_sentinel :
    (∀ p ∈ exSentinel, 0 ≤ p.arrivalTime ∧ 0 < p.burstDuration) ∧
    ¬ ∃ fuel st', sjfRun fuel exSentinel = some st' := by
  refine ⟨by decide, ?_⟩
  rintro ⟨fuel, st', h⟩
  rw [sjfRun, sentinel_loop_none fuel _ (by decide) (by decide) (by decide)] at h
  exact Option.noConfusion h

/-- C9, amended: for arrival times >= 0 and burst durations positive and
strictly below the 100000000 scan sentinel, the `SJFSchedule` loop
terminates — the loop bound grows only on idle ticks, every running tick
strictly reduces the remaining work, and idle ticks only happen while
some arrival is still in the future, so the combined measure (remaining
work plus time to the last arrival) strictly decreases. -/
theorem sjf_terminates_bounded (ps : List Process) (hwf : WellFormed ps) :
    ∃ fuel st', sjfRun fuel ps = some st' := by
  have hinv : SimInv (simInit ps) := by
    refine ⟨by simp [simInit], ?_, ?_, by simp [simInit], by simp [simInit]⟩
    · intro r hr
      simp only [simInit, List.mem_map] at hr
      obtain ⟨p, hp, hpr⟩ := hr
      have := (hwf p hp).2.1
      omega
    · intro i hi
      simp only [simInit] at hi ⊢
      rw [List.length_map] at hi
      rw [list_getD_map ps i _ hi]
  obtain ⟨st', h⟩ := simLoop_sjf_exits (simMeasure (simInit ps)) (simInit ps) hwf hinv le_rfl
  exact ⟨simMeasure (simInit ps), st', h⟩

/-- C9, witness: the amended termination theorem applied to a concrete
well-formed input. -/
theorem sjf_terminates_bounded_witness :
    ∃ fuel st', sjfRun fuel exSingle2 = some st' :=
  sjf_terminates_bounded exSingle2 (by unfold WellFormed; decide)

/-- C8.  On the empty process list every scheduler performs `0 / 0`
(modelled by `fdiv _ 0 = none`, the float NaN): all three aggregate
values of FCFS, SJF and Priority-SJF are the result of a divide-by-zero,
not zero or an explicit undefined marker.  The row tables are empty as
claimed. -/
theorem empty_input_nan_stats :
    fcfsStats [] = ⟨none, none, none⟩ ∧
    sjfStats 0 [] = some ⟨none, none, none⟩ ∧
    priorityStats 0 [] = some ⟨none, none, none⟩ ∧
    (fcfsRun []).rows = [] ∧
    (sjfRun 0 []).map (·.rows) = some [] ∧
    (priorityRun 0 []).map (·.rows) = some [] := by
  have hs : sjfRun 0 [] = some (simInit []) := by decide
  have hp : priorityRun 0 [] = some (simInit []) := by decide
  refine ⟨by simp [fcfsStats, fcfsRun, fdiv], ?_, ?_, by decide, by decide, by decide⟩
  · rw [sjfStats, hs]
    simp [fdiv, simInit]
  · rw [priorityStats, hp]
    simp [fdiv, simInit]

/-- C10.  `RRSchedule` mutates the caller-owned process list: on any
well-formed non-empty input whose run terminates, the list after the call
differs from the input (it has been reordered by arrival and every burst
decremented to 0), while `FCFSSchedule`, `SJFSchedule` and
`SJFPrioritySchedule` leave the caller's list untouched — their loops
only read `processes` and work on the private `processBurstLeft` copy. -/
theorem rr_mutates_others_preserve (ps : List Process) (fuel : Nat) (st' : RRState)
    (hwf : ∀ p ∈ ps, 0 < p.burstDuration) (hne : ps ≠ [])
    (hrun : rrRun fuel ps = some st') :
    st'.processes ≠ ps ∧
    (∀ qs, (fcfsRun qs).processes = qs) ∧
    (∀ qs f st, sjfRun f qs = some st → st.processes = qs) ∧
    (∀ qs f st, priorityRun f qs = some st → st.processes = qs) := by
  refine ⟨?_, fcfsRun_processes, ?_, ?_⟩
  · simp only [rrRun] at hrun
    have hinit : RRInv
        { processes := rrSort ps
          burstInit := (rrSort ps).map (·.burstDuration)
          timestep := 0
          totalBurstTime := ((rrSort ps).map (·.burstDuration)).sum
          rows := (rrSort ps).map fun _ => none
          gantt := []
          ranProcess := false } := by
      refine ⟨by dsimp only; omega, ?_⟩
      intro p hp
      exact rrSort_nonneg ps (fun q hq => le_of_lt (hwf q hq)) p hp
    obtain ⟨⟨htot, hnn⟩, hexit⟩ := rrLoop_inv fuel _ st' hrun hinit
    intro hcontra
    obtain ⟨h0, tl0, hps⟩ := List.exists_cons_of_ne_nil hne
    have hh : h0 ∈ st'.processes := by
      rw [hcontra, hps]
      exact List.mem_cons_self _ _
    have hmem : h0.burstDuration ∈ st'.processes.map (·.burstDuration) :=
      List.mem_map_of_mem _ hh
    have hnnm : ∀ r ∈ st'.processes.map (·.burstDuration), 0 ≤ r := by
      intro r hr
      obtain ⟨q, hq, hqr⟩ := List.mem_map.1 hr
      rw [← hqr]
      exact hnn q hq
    have hle := le_sum_of_mem _ _ hnnm hmem
    have hpos := hwf h0 (by rw [hps]; exact List.mem_cons_self _ _)
    omega
  · intro qs f st h
    rw [sjfRun] at h
    rw [simLoop_processes sjfTick (fun s => sjfTickAux_processes s _) f _ _ h]
    rfl
  · intro qs f st h
    rw [priorityRun] at h
    rw [simLoop_processes priorityTick (fun s => priorityTickAux_processes s _) f _ _ h]
    rfl

/-- C10, witness: on the two-process input (id 1, arrival 3, burst 1),
(id 2, arrival 0, burst 2), the RR run terminates within fuel 10 and the
caller's list afterwards differs from the input. -/
theorem rr_mutates_witness :
    ∃ st', rrRun 10 exRR = some st' ∧ st'.processes ≠ exRR := by
  have hs : (rrRun 10 exRR).isSome = true := by decide
  refine ⟨(rrRun 10 exRR).get hs, (Option.some_get hs).symm, ?_⟩
  exact (rr_mutates_others_preserve exRR 10 _ (by decide) (by decide)
    (Option.some_get hs).symm).1

end ProcSched
